import Mathlib

/-!
Shallow embedding of the ATG graph tool (src/loader.rs, src/main.rs) and a
verification of the spec's claims about it.

Conventions of the embedding:
- Rust `usize` values become `Nat`; arithmetic overflow/underflow is modelled
  as a panic (overflow-checked build semantics), with the bound `USIZE = 2^64`
  made explicit where an addition can exceed it.
- A `Vec<T>` becomes `List T`; every indexing operation of the source is
  guarded by the same bound check the Rust runtime performs, and a failed
  check produces the explicit `panicked` outcome.
- Loops that are not structurally bounded in the source (the label-setting
  frontier loop, Kahn's outer loop, predecessor-path reconstruction, the
  loader's backfill `while previous != from`) take fuel; running out of fuel
  is reported as `diverged` and corresponds to a run of the source that has
  not terminated within that budget (the backfill loop genuinely never
  terminates once `from < previous`).
-/

namespace ATG

/-- Outcome of running one of the three engines: a Rust panic (index out of
bounds or checked arithmetic overflow), divergence (fuel ran out), the
explicit `None` absence value, or a result. -/
inductive Res (α : Type) where
  | panicked : Res α
  | diverged : Res α
  | absent : Res α
  | found : α → Res α
deriving DecidableEq

/-- An edge as parsed by the loader: `(from, to, weight)`, all usize. -/
structure Edge where
  from_ : Nat
  to_ : Nat
  weight : Nat
deriving DecidableEq

/-- `loader::Graph`: the offsets array `hints` and the edge list. -/
structure Graph where
  hints : List Nat
  edges : List Edge
deriving DecidableEq

/-- `Graph::children`: `&self.edges[self.hints[node - 1]..self.hints[node]]`.
`none` models the panics: `node = 0` underflows the index, `node` out of
bounds of `hints`, or a slice range that is invalid for `edges`. -/
def Graph.children (g : Graph) (node : Nat) : Option (List Edge) :=
  if 1 ≤ node ∧ node < g.hints.length then
    if g.hints.getD (node - 1) 0 ≤ g.hints.getD node 0 ∧
        g.hints.getD node 0 ≤ g.edges.length then
      some ((g.edges.drop (g.hints.getD (node - 1) 0)).take
        (g.hints.getD node 0 - g.hints.getD (node - 1) 0))
    else none
  else none

/-- Result of `Graph::new`: the `MalformedInput` error, divergence of the
backfill loop (it never terminates once the current line's `from` is behind
the running counter), or the loaded graph. -/
inductive LoadRes where
  | malformed : LoadRes
  | diverged : LoadRes
  | ok : Graph → LoadRes
deriving DecidableEq

/-- One input line, already tokenized by `split_whitespace` and with each
token taken through `str::parse::<usize>`: `some n` is a token that parsed
as the non-negative integer `n`, `none` a token that did not parse. -/
def Line : Type := List (Option Nat)

/-- The let-else pattern of `Graph::new`: the first three parse results must
all be `Ok`; any further tokens of the line are never read. -/
def parseLine (l : Line) : Option (Nat × Nat × Nat) :=
  match l with
  | some a :: some b :: some c :: _ => some (a, b, c)
  | _ => none

/-- The loader's line loop. `i` is the `enumerate` index, `previous` the
running "expected next node id" counter, `hints`/`edges` the accumulators.
The backfill `while previous != from` pushes `i` once per skipped id and
never terminates when `from < previous`. -/
def Graph.newGo : List Line → Nat → Nat → List Nat → List Edge → LoadRes
  | [], i, _, hints, edges => .ok ⟨hints ++ [i], edges⟩
  | l :: rest, i, previous, hints, edges =>
    match parseLine l with
    | none => .malformed
    | some (f, t, w) =>
      if f < previous then .diverged
      else Graph.newGo rest (i + 1) f (hints ++ List.replicate (f - previous) i)
        (edges ++ [⟨f, t, w⟩])

/-- `Graph::new`: `hints` starts as `[0]`, `previous` at 1, and after the
lines are consumed the final offset entry (the line count) is pushed. -/
def Graph.new (lines : List Line) : LoadRes :=
  Graph.newGo lines 0 1 [0] []

/-- The usize range bound: checked arithmetic panics at `2^64`. -/
def USIZE : Nat := 2 ^ 64

/-- `slice::binary_search_by` exactly as the standard library implements it:
midpoint probing over `[left, right)` with the caller's comparator, `inl pos`
for `Ok(pos)` (comparator returned `Equal` at `pos`), `inr pos` for
`Err(pos)`. The fuel is always called with `length + 1`, enough for the
interval to empty. -/
def bsGo (f : Nat → Ordering) (xs : List Nat) : Nat → Nat → Nat → Sum Nat Nat
  | 0, left, _ => .inr left
  | fuel + 1, left, right =>
    if left < right then
      let mid := left + (right - left) / 2
      match f (xs.getD mid 0) with
      | .lt => bsGo f xs fuel (mid + 1) right
      | .gt => bsGo f xs fuel left mid
      | .eq => .inl mid
    else .inr left

/-- `e.binary_search_by(|&i| ...)` over the whole frontier. -/
def binarySearch (f : Nat → Ordering) (xs : List Nat) : Sum Nat Nat :=
  bsGo f xs (xs.length + 1) 0 xs.length

/-- `Vec::insert(pos, x)`; the searches of `label_set` always produce
`pos ≤ len`, so the fallthrough for a too-large position is never reached. -/
def insertAt (pos : Nat) (a : Nat) : List Nat → List Nat
  | l =>
    match pos, l with
    | 0, l => a :: l
    | _ + 1, [] => [a]
    | n + 1, y :: ys => y :: insertAt n a ys

/-- The path reconstruction of `label_set`: push the current node, follow
`x[cur]` until a node without predecessor. A predecessor cycle makes the
source loop forever (`diverged`); an out-of-range index would panic. -/
def reconstruct (x : List (Option Nat)) : Nat → Nat → Res (List Nat)
  | 0, _ => .diverged
  | fuel + 1, cur =>
    if cur < x.length then
      match x.getD cur none with
      | none => .found [cur]
      | some p =>
        match reconstruct x fuel p with
        | .found path => .found (cur :: path)
        | r => r
    else .panicked

/-- The body of `label_set`'s `for` loop over `graph.children(node)`:
either an early exit (`inl`: panic, divergence, or the result returned the
instant `to == end` is relaxed) or the updated `(t, x, e)` state (`inr`).
The reads `t[to]`, `t[node]`, the write `x[to]` and the checked addition
`t[node] + weight` panic exactly as in the source; a successful relaxation
re-sorts `to` into the frontier unless the binary search found an entry whose
current distance compares equal (the `let Err(pos) ... else continue`). -/
def lsEdges (g : Graph) (end_ node : Nat) :
    List Edge → List Nat → List (Option Nat) → List Nat →
    Sum (Res (List Nat × Nat)) (List Nat × List (Option Nat) × List Nat)
  | [], t, x, e => .inr (t, x, e)
  | ed :: rest, t, x, e =>
    if ed.to_ < t.length ∧ node < t.length then
      if t.getD node 0 + ed.weight < USIZE then
        if t.getD node 0 + ed.weight < t.getD ed.to_ 0 then
          let t' := t.set ed.to_ (t.getD node 0 + ed.weight)
          if ed.to_ < x.length then
            let x' := x.set ed.to_ (some node)
            if ed.to_ = end_ then
              match reconstruct x' (x'.length + 1) end_ with
              | .found path => .inl (.found (path, t'.getD end_ 0))
              | .diverged => .inl .diverged
              | _ => .inl .panicked
            else
              match binarySearch (fun i => compare (t'.getD ed.to_ 0) (t'.getD i 0)) e with
              | .inl _ => lsEdges g end_ node rest t' x' e
              | .inr pos => lsEdges g end_ node rest t' x' (insertAt pos ed.to_ e)
          else .inl .panicked
        else lsEdges g end_ node rest t x e
      else .inl .panicked
    else .inl .panicked

/-- The frontier loop of `label_set`: pop the last element of `e` (the node
whose distance sorted smallest), walk its out-edges, repeat. An empty
frontier returns the absence value. -/
def lsLoop (g : Graph) (end_ : Nat) :
    Nat → List Nat → List (Option Nat) → List Nat → Res (List Nat × Nat)
  | 0, _, _, _ => .diverged
  | fuel + 1, t, x, e =>
    match e.getLast? with
    | none => .absent
    | some node =>
      match g.children node with
      | none => .panicked
      | some cs =>
        match lsEdges g end_ node cs t x e.dropLast with
        | .inl r => r
        | .inr (t', x', e') => lsLoop g end_ fuel t' x' e'

/-- `label_set(start, end, graph)`: distances start at the sentinel
`1 << 32`, `t[start] = 0` (a panic when `start` has no slot), the frontier
is seeded with `start`. -/
def labelSet (fuel : Nat) (start end_ : Nat) (g : Graph) : Res (List Nat × Nat) :=
  let n := g.hints.length
  if start < n then
    lsLoop g end_ fuel ((List.replicate n (2 ^ 32)).set start 0)
      (List.replicate n none) [start]
  else .panicked

/-- The in-degree pass of `monotone_ordering`:
`for edge in &graph.edges { costs[edge.to_] += 1 }`; `none` is the panic on a
`to` with no slot. -/
def buildCosts : List Edge → List Nat → Option (List Nat)
  | [], costs => some costs
  | ed :: rest, costs =>
    if ed.to_ < costs.length then
      buildCosts rest (costs.set ed.to_ (costs.getD ed.to_ 0 + 1))
    else none

/-- `for &Edge { to, .. } in graph.children(node) { costs[to] -= 1 }`:
a `to` with no slot panics, and so does the checked usize subtraction once a
count is already zero (which the inverted `retain` of the source makes
reachable by processing a node twice). -/
def moDec : List Edge → List Nat → Option (List Nat)
  | [], costs => some costs
  | ed :: rest, costs =>
    if ed.to_ < costs.length then
      if costs.getD ed.to_ 0 = 0 then none
      else moDec rest (costs.set ed.to_ (costs.getD ed.to_ 0 - 1))
    else none

/-- One `used.retain(...)` pass. The closure returns `true` (keep) for a
node whose in-degree count is zero after processing it, `false` (drop) for
every other node; side effects on `costs`, `ordering` and `counter` happen
in visit order. `none` is a panic inside the pass. -/
def moPass (g : Graph) :
    List Nat → List Nat → List Nat → Nat →
    Option (List Nat × List Nat × List Nat × Nat)
  | [], costs, ordering, counter => some ([], costs, ordering, counter)
  | node :: rest, costs, ordering, counter =>
    if node < costs.length then
      if costs.getD node 0 = 0 then
        match g.children node with
        | none => none
        | some cs =>
          match moDec cs costs with
          | none => none
          | some costs' =>
            if node < ordering.length then
              match moPass g rest costs' (ordering.set node counter) (counter + 1) with
              | none => none
              | some (kept, c2, o2, k2) => some (node :: kept, c2, o2, k2)
            else none
      else moPass g rest costs ordering counter
    else none

/-- The outer `while !used.is_empty()` loop of `monotone_ordering`: run a
pass, and return absence when the pass left `used` the same length. -/
def moLoop (g : Graph) : Nat → List Nat → List Nat → List Nat → Nat → Res (List Nat)
  | 0, _, _, _, _ => .diverged
  | fuel + 1, used, costs, ordering, counter =>
    if used.isEmpty then .found ordering
    else
      match moPass g used costs ordering counter with
      | none => .panicked
      | some (kept, costs', ordering', counter') =>
        if used.length = kept.length then .absent
        else moLoop g fuel kept costs' ordering' counter'

/-- `monotone_ordering(graph)`: in-degree counts over `hints.len()` slots,
`used = (1..hints.len())`, `ordering` zero-initialised, counter from 0. -/
def monotoneOrdering (fuel : Nat) (g : Graph) : Res (List Nat) :=
  match buildCosts g.edges (List.replicate g.hints.length 0) with
  | none => .panicked
  | some costs =>
    moLoop g fuel (List.range' 1 (g.hints.length - 1)) costs
      (List.replicate g.hints.length 0) 0

/-- Stable insertion by key: an element moves past every strictly larger
key, so equal keys keep their original order. -/
def insertStable (k : Nat → Nat) (a : Nat) : List Nat → List Nat
  | [] => [a]
  | y :: ys => if k a < k y then a :: y :: ys else y :: insertStable k a ys

/-- `sorted_hints.sort_by_key(|&i| graph.edges[i].weight)`: a stable sort by
key; stability makes the result unique, so any stable algorithm matches the
source's. -/
def sortByKey (k : Nat → Nat) : List Nat → List Nat
  | [] => []
  | a :: rest => insertStable k a (sortByKey k rest)

/-- The edge loop of `kruskal` over the weight-sorted indices. The reads
`groups[from]` and `groups[to]` panic when the endpoint has no slot in the
edge-count-sized `groups` array; a merge relabels every entry carrying the
larger group id. -/
def kruskalGo (g : Graph) : List Nat → List (Option Nat) → Nat → List Edge →
    Option (List Edge)
  | [], _, _, result => some result
  | i :: rest, groups, counter, result =>
    let ed := g.edges.getD i ⟨0, 0, 0⟩
    if ed.from_ < groups.length ∧ ed.to_ < groups.length then
      match groups.getD ed.from_ none, groups.getD ed.to_ none with
      | none, none =>
        kruskalGo g rest ((groups.set ed.from_ (some counter)).set ed.to_ (some counter))
          (counter + 1) (result ++ [ed])
      | none, some b => kruskalGo g rest (groups.set ed.from_ (some b)) counter (result ++ [ed])
      | some a, none => kruskalGo g rest (groups.set ed.to_ (some a)) counter (result ++ [ed])
      | some a, some b =>
        if a ≠ b then
          kruskalGo g rest
            (groups.map fun go => if go = some (max a b) then some (min a b) else go)
            counter (result ++ [ed])
        else kruskalGo g rest groups counter result
    else none

/-- `kruskal(graph)`: group labels sized to the **edge** count, indices
sorted by weight, and the acceptance check `result.len() != hints.len() - 2`
(whose usize subtraction panics when `hints` is shorter than 2). -/
def kruskal (g : Graph) : Res (List Edge) :=
  if g.hints.length < 2 then .panicked
  else
    match kruskalGo g (sortByKey (fun i => (g.edges.getD i ⟨0, 0, 0⟩).weight)
        (List.range g.edges.length)) (List.replicate g.edges.length none) 0 [] with
    | none => .panicked
    | some result =>
      if result.length ≠ g.hints.length - 2 then .absent else .found result

/-! ### Specification-side predicates -/

/-- `hasEdge g u v`: some edge of `g` goes from `u` to `v`. -/
def hasEdge (g : Graph) (u v : Nat) : Bool :=
  g.edges.any fun ed => ed.from_ == u && ed.to_ == v

/-- A list read as a returned path (end first): every node is preceded, in
the graph, by the node that follows it in the list. -/
def revLinked (g : Graph) : List Nat → Bool
  | a :: b :: rest => hasEdge g b a && revLinked g (b :: rest)
  | _ => true

/-- Total weight of a returned (end-first) path, reading each consecutive
pair `a :: b :: _` as the first edge `b → a` of the graph; `none` when some
pair has no edge. -/
def pathWeightRev (g : Graph) : List Nat → Option Nat
  | a :: b :: rest =>
    match g.edges.find? (fun ed => ed.from_ == b && ed.to_ == a),
        pathWeightRev g (b :: rest) with
    | some ed, some s => some (ed.weight + s)
    | _, _ => none
  | _ => some 0

/-- `IsChain g a b c`: there is a walk from `a` to `b` in `g` whose edge
weights sum to `c`. -/
inductive IsChain (g : Graph) : Nat → Nat → Nat → Prop where
  | nil (a : Nat) : IsChain g a a 0
  | cons {a b c v w : Nat} :
      IsChain g a b c → Edge.mk b v w ∈ g.edges → IsChain g a v (c + w)

/-- The CSR well-formedness the loader establishes for sorted input:
every edge that `children node` yields carries `from_ = node`. Decidable so
that concrete graphs can be checked by evaluation. -/
def gWFb (g : Graph) : Bool :=
  (List.range g.hints.length).all fun node =>
    match g.children node with
    | some cs => cs.all fun ed => ed.from_ == node
    | none => true

/-- Largest node id mentioned by the edges (either endpoint). -/
def maxNode (g : Graph) : Nat :=
  g.edges.foldl (fun a ed => max a (max ed.from_ ed.to_)) 0

/-- Largest `from` field of a list of edges. -/
def maxFromL (l : List Edge) : Nat :=
  l.foldl (fun a ed => max a ed.from_) 0

/-- Largest `from` field of the edges of a graph. -/
def maxFrom (g : Graph) : Nat :=
  maxFromL g.edges

/-- The input precondition of the loader, checked over the parse results:
the `from` fields of the well-formed lines, in file order, never fall behind
the running counter (start at `prev`, non-decreasing). -/
def fromsOk : List Line → Nat → Bool
  | [], _ => true
  | l :: rest, prev =>
    match parseLine l with
    | none => fromsOk rest prev
    | some (f, _, _) => decide (prev ≤ f) && fromsOk rest f

/-! ### Concrete inputs used by the claims -/

/-- The spec's scenario input: edges `(1,2,1), (1,3,4), (2,3,1)`. -/
def scenLines : List Line :=
  [[some 1, some 2, some 1], [some 1, some 3, some 4], [some 2, some 3, some 1]]

/-- The graph the loader builds from `scenLines`: node `3` never appears as
a `from`, so `hints` has only 3 entries and node `3` has no slot. -/
def Gscen : Graph :=
  ⟨[0, 2, 3], [⟨1, 2, 1⟩, ⟨1, 3, 4⟩, ⟨2, 3, 1⟩]⟩

/-- A 2-cycle: edges `(1,2,1), (2,1,1)`. -/
def g12Lines : List Line :=
  [[some 1, some 2, some 1], [some 2, some 1, some 1]]

/-- The graph loaded from `g12Lines`. -/
def G12 : Graph := ⟨[0, 1, 2], [⟨1, 2, 1⟩, ⟨2, 1, 1⟩]⟩

/-- A single edge `(2,1,5)`: an acyclic input on which the inverted
`retain` of `monotone_ordering` re-processes node 2 in the second pass and
underflows the in-degree counter of node 1. -/
def g21Lines : List Line := [[some 2, some 1, some 5]]

/-- The graph loaded from `g21Lines`. -/
def G21 : Graph := ⟨[0, 0, 1], [⟨2, 1, 5⟩]⟩

/-- Edges `(1,2,10), (1,3,1), (3,2,1)`: the direct edge `1 → 2` costs 10,
the detour `1 → 3 → 2` costs 2. -/
def c1Lines : List Line :=
  [[some 1, some 2, some 10], [some 1, some 3, some 1], [some 3, some 2, some 1]]

/-- The graph loaded from `c1Lines`. -/
def Gc1 : Graph :=
  ⟨[0, 2, 2, 3], [⟨1, 2, 10⟩, ⟨1, 3, 1⟩, ⟨3, 2, 1⟩]⟩

/-- Edges `(1,2,2^32), (1,4,0), (3,1,0)`: the only walks from 1 to 2 cost
`2^32`, and node 4 has no slot in the distance array. -/
def c10Lines : List Line :=
  [[some 1, some 2, some 4294967296], [some 1, some 4, some 0], [some 3, some 1, some 0]]

/-- The graph loaded from `c10Lines`. -/
def Gc10 : Graph :=
  ⟨[0, 2, 2, 3], [⟨1, 2, 4294967296⟩, ⟨1, 4, 0⟩, ⟨3, 1, 0⟩]⟩

/-- An 8-node input on which a predecessor entry goes stale before the
result is returned: the reported cost (26) differs from the weight sum of
the returned path (19). -/
def c2Lines : List Line :=
  [[some 1, some 6, some 10], [some 1, some 5, some 20], [some 1, some 3, some 2],
   [some 1, some 2, some 1], [some 1, some 4, some 30],
   [some 2, some 5, some 1], [some 2, some 4, some 2],
   [some 5, some 6, some 1], [some 6, some 7, some 15], [some 7, some 8, some 1],
   [some 8, some 1, some 1]]

/-- The graph loaded from `c2Lines`. -/
def G8 : Graph :=
  ⟨[0, 5, 7, 7, 7, 8, 9, 10, 11],
   [⟨1, 6, 10⟩, ⟨1, 5, 20⟩, ⟨1, 3, 2⟩, ⟨1, 2, 1⟩, ⟨1, 4, 30⟩,
    ⟨2, 5, 1⟩, ⟨2, 4, 2⟩, ⟨5, 6, 1⟩, ⟨6, 7, 15⟩, ⟨7, 8, 1⟩, ⟨8, 1, 1⟩]⟩

/-- Invariant of the label-setting working state `(t, x)` for start node
`s`: distances never exceed the sentinel `2^32`, the start keeps distance 0
and no predecessor, every finite distance is the weight of a real walk from
`s`, and every predecessor entry points one real edge backwards to a node
that is the start or has a predecessor itself. -/
structure LSInv (g : Graph) (s : Nat) (t : List Nat) (x : List (Option Nat)) : Prop where
  len : t.length = x.length
  ts : t.getD s 0 = 0
  bound : ∀ i, t.getD i 0 ≤ 2 ^ 32
  chain : ∀ i, i < t.length → t.getD i 0 < 2 ^ 32 → IsChain g s i (t.getD i 0)
  xs : x.getD s none = none
  xpred : ∀ v p, x.getD v none = some p →
    (p = s ∨ x.getD p none ≠ none) ∧ p < x.length ∧ hasEdge g p v = true

/-- What is true of every outcome the label-setting loop can produce: when
it is a `found (path, cost)`, the path runs from the end node back to the
start along real edges, and the cost is the weight of some walk from start
to end, strictly below the sentinel; a result also forces `end ≠ start`. -/
def FoundOk (g : Graph) (s end_ : Nat) : Res (List Nat × Nat) → Prop
  | .found pc =>
      pc.1.head? = some end_ ∧ pc.1.getLast? = some s ∧ revLinked g pc.1 = true ∧
      IsChain g s end_ pc.2 ∧ pc.2 < 2 ^ 32 ∧ end_ ≠ s
  | _ => True

/-! ### List helpers -/

theorem getD_set {α : Type} (l : List α) (i j : Nat) (v d : α) :
    (l.set i v).getD j d = if i = j ∧ i < l.length then v else l.getD j d := by
  induction l generalizing i j with
  | nil => simp [List.getD]
  | cons a as ih =>
    cases i with
    | zero =>
      cases j with
      | zero => simp [List.getD]
      | succ j => simp [List.getD]
    | succ i =>
      cases j with
      | zero => simp [List.getD]
      | succ j =>
        simp only [List.set, List.length_cons, List.getD_cons_succ]
        rw [ih i j]
        by_cases h : i = j ∧ i < as.length
        · simp [h.1, h.2, Nat.succ_lt_succ h.2]
        · have : ¬(i + 1 = j + 1 ∧ i + 1 < as.length + 1) := by
            intro hc
            exact h ⟨Nat.succ_injective hc.1, Nat.lt_of_succ_lt_succ hc.2⟩
          simp only [if_neg h, if_neg this]

theorem getD_replicate {α : Type} (n i : Nat) (a d : α) :
    (List.replicate n a).getD i d = if i < n then a else d := by
  induction n generalizing i with
  | zero => simp [List.getD]
  | succ n ih =>
    cases i with
    | zero => simp [List.replicate, List.getD]
    | succ i =>
      simp only [List.replicate, List.getD_cons_succ]
      rw [ih i]
      by_cases h : i < n
      · simp [h, Nat.succ_lt_succ h]
      · have : ¬(i + 1 < n + 1) := fun hc => h (Nat.lt_of_succ_lt_succ hc)
        simp [h, this]

theorem mem_insertAt (v : Nat) :
    ∀ (pos a : Nat) (l : List Nat), v ∈ insertAt pos a l → v = a ∨ v ∈ l := by
  intro pos a l
  induction l generalizing pos with
  | nil =>
    cases pos with
    | zero => intro h; simpa [insertAt] using h
    | succ n => intro h; simpa [insertAt] using h
  | cons y ys ih =>
    cases pos with
    | zero => intro h; simpa [insertAt] using h
    | succ n =>
      intro h
      simp only [insertAt, List.mem_cons] at h
      rcases h with h | h
      · exact Or.inr (by simp [h])
      · rcases ih n h with h' | h'
        · exact Or.inl h'
        · exact Or.inr (by simp [h'])

theorem mem_getLast? {α : Type} :
    ∀ (l : List α) (a : α), l.getLast? = some a → a ∈ l := by
  intro l
  induction l with
  | nil => intro a h; simp at h
  | cons b bs ih =>
    intro a h
    cases bs with
    | nil =>
      simp only [List.getLast?_singleton, Option.some.injEq] at h
      simp [h]
    | cons c cs =>
      rw [List.getLast?_cons_cons] at h
      exact List.mem_cons_of_mem b (ih a h)

/-- A non-`none` entry of the predecessor array survives any `set` of a
`some` value. -/
theorem xset_keeps_some (x : List (Option Nat)) (a b p : Nat)
    (h : x.getD p none ≠ none) : (x.set a (some b)).getD p none ≠ none := by
  rw [getD_set]
  split
  · simp
  · exact h

/-! ### Facts about `children` -/

theorem children_mem (g : Graph) (node : Nat) (cs : List Edge)
    (h : g.children node = some cs) : ∀ ed ∈ cs, ed ∈ g.edges := by
  intro ed hed
  unfold Graph.children at h
  split at h
  · split at h
    · rw [Option.some.injEq] at h
      subst h
      exact List.drop_subset _ g.edges (List.take_subset _ _ hed)
    · exact absurd h (by simp)
  · exact absurd h (by simp)

theorem children_from (g : Graph) (hw : gWFb g = true) (node : Nat)
    (cs : List Edge) (h : g.children node = some cs) :
    ∀ ed ∈ cs, ed.from_ = node := by
  intro ed hed
  have hlt : node < g.hints.length := by
    unfold Graph.children at h
    split at h
    · next h1 => exact h1.2
    · exact absurd h (by simp)
  unfold gWFb at hw
  rw [List.all_eq_true] at hw
  have := hw node (List.mem_range.mpr hlt)
  rw [h] at this
  rw [List.all_eq_true] at this
  exact eq_of_beq (this ed hed)

/-! ### Path reconstruction -/

theorem reconstruct_spec (g : Graph) (s : Nat) (x : List (Option Nat))
    (hx : ∀ v p, x.getD v none = some p →
      (p = s ∨ x.getD p none ≠ none) ∧ p < x.length ∧ hasEdge g p v = true) :
    ∀ (fuel cur : Nat) (path : List Nat),
      (cur = s ∨ x.getD cur none ≠ none) →
      reconstruct x fuel cur = .found path →
      path.head? = some cur ∧ path.getLast? = some s ∧ revLinked g path = true := by
  intro fuel
  induction fuel with
  | zero =>
    intro cur path hcur h
    exact absurd h (by simp [reconstruct])
  | succ fuel ih =>
    intro cur path hcur h
    simp only [reconstruct] at h
    split at h
    · cases hget : x.getD cur none with
      | none =>
        simp only [hget, Res.found.injEq] at h
        subst h
        have hcs : cur = s := by
          rcases hcur with hcs | hne
          · exact hcs
          · exact absurd hget hne
        subst hcs
        exact ⟨rfl, rfl, rfl⟩
      | some p =>
        simp only [hget] at h
        cases hrec : reconstruct x fuel p with
        | found path' =>
          simp only [hrec, Res.found.injEq] at h
          subst h
          have hp := hx cur p hget
          obtain ⟨h1, h2, h3⟩ := ih p path' hp.1 hrec
          cases path' with
          | nil => simp at h1
          | cons q rest =>
            have hq : q = p := by simpa using h1
            subst hq
            refine ⟨rfl, ?_, ?_⟩
            · rw [List.getLast?_cons_cons]
              exact h2
            · simp [revLinked, hp.2.2, h3]
        | panicked => simp only [hrec] at h; exact Res.noConfusion h
        | diverged => simp only [hrec] at h; exact Res.noConfusion h
        | absent => simp only [hrec] at h; exact Res.noConfusion h
    · exact Res.noConfusion h

/-! ### The main invariant lemma of the label-setting engine -/

theorem lsEdges_master (g : Graph) (s end_ node : Nat) :
    ∀ (cs : List Edge) (t : List Nat) (x : List (Option Nat)) (e : List Nat),
      (∀ ed ∈ cs, ed ∈ g.edges ∧ ed.from_ = node) →
      LSInv g s t x →
      (node = s ∨ x.getD node none ≠ none) →
      (∀ v ∈ e, v = s ∨ x.getD v none ≠ none) →
      (∀ r, lsEdges g end_ node cs t x e = .inl r → FoundOk g s end_ r) ∧
      (∀ t' x' e', lsEdges g end_ node cs t x e = .inr (t', x', e') →
        LSInv g s t' x' ∧ ∀ v ∈ e', v = s ∨ x'.getD v none ≠ none) := by
  intro cs
  induction cs with
  | nil =>
    intro t x e hcs hinv hnode he
    constructor
    · intro r h
      exact absurd h (by simp [lsEdges])
    · intro t' x' e' h
      simp only [lsEdges, Sum.inr.injEq, Prod.mk.injEq] at h
      obtain ⟨rfl, rfl, rfl⟩ := h
      exact ⟨hinv, he⟩
  | cons ed rest ih =>
    intro t x e hcs hinv hnode he
    have hcs' : ∀ a ∈ rest, a ∈ g.edges ∧ a.from_ = node :=
      fun a ha => hcs a (List.mem_cons_of_mem _ ha)
    have hed := hcs ed (List.mem_cons_self _ _)
    by_cases hb : ed.to_ < t.length ∧ node < t.length
    · by_cases hov : t.getD node 0 + ed.weight < USIZE
      · by_cases hrel : t.getD node 0 + ed.weight < t.getD ed.to_ 0
        · by_cases hxb : ed.to_ < x.length
          · -- the relaxation fires
            have hvlt : t.getD node 0 + ed.weight < 2 ^ 32 :=
              Nat.lt_of_lt_of_le hrel (hinv.bound ed.to_)
            have hnlt : t.getD node 0 < 2 ^ 32 :=
              Nat.lt_of_le_of_lt (Nat.le_add_right _ _) hvlt
            have hchain_node : IsChain g s node (t.getD node 0) :=
              hinv.chain node hb.2 hnlt
            have hmem : Edge.mk node ed.to_ ed.weight ∈ g.edges := by
              rw [← hed.2]
              exact hed.1
            have hchain_to : IsChain g s ed.to_ (t.getD node 0 + ed.weight) :=
              IsChain.cons hchain_node hmem
            have htos : ed.to_ ≠ s := by
              intro hc
              rw [hc, hinv.ts] at hrel
              exact Nat.not_lt_zero _ hrel
            have hasE : hasEdge g node ed.to_ = true := by
              rw [hasEdge, List.any_eq_true]
              exact ⟨Edge.mk node ed.to_ ed.weight, hmem, by simp⟩
            have hinv' : LSInv g s (t.set ed.to_ (t.getD node 0 + ed.weight))
                (x.set ed.to_ (some node)) := by
              refine ⟨?_, ?_, ?_, ?_, ?_, ?_⟩
              · simp [hinv.len]
              · rw [getD_set, if_neg (fun hc => htos hc.1)]
                exact hinv.ts
              · intro i
                rw [getD_set]
                split
                · exact Nat.le_of_lt hvlt
                · exact hinv.bound i
              · intro i hi hlt
                rw [List.length_set] at hi
                rw [getD_set] at hlt ⊢
                by_cases hc : ed.to_ = i ∧ ed.to_ < t.length
                · rw [if_pos hc] at hlt ⊢
                  cases hc.1
                  exact hchain_to
                · rw [if_neg hc] at hlt ⊢
                  exact hinv.chain i hi hlt
              · rw [getD_set, if_neg (fun hc => htos hc.1)]
                exact hinv.xs
              · intro v p hvp
                rw [getD_set] at hvp
                by_cases hc : ed.to_ = v ∧ ed.to_ < x.length
                · rw [if_pos hc] at hvp
                  have hpn : node = p := by injection hvp
                  cases hpn
                  refine ⟨?_, ?_, ?_⟩
                  · rcases hnode with h | h
                    · exact Or.inl h
                    · exact Or.inr (xset_keeps_some x ed.to_ node node h)
                  · rw [List.length_set, ← hinv.len]
                    exact hb.2
                  · rw [← hc.1]
                    exact hasE
                · rw [if_neg hc] at hvp
                  obtain ⟨hp1, hp2, hp3⟩ := hinv.xpred v p hvp
                  refine ⟨?_, ?_, hp3⟩
                  · rcases hp1 with h | h
                    · exact Or.inl h
                    · exact Or.inr (xset_keeps_some x ed.to_ node p h)
                  · rw [List.length_set]
                    exact hp2
            have he' : ∀ v ∈ e, v = s ∨ (x.set ed.to_ (some node)).getD v none ≠ none := by
              intro v hv
              rcases he v hv with h | h
              · exact Or.inl h
              · exact Or.inr (xset_keeps_some x ed.to_ node v h)
            have hnode' : node = s ∨ (x.set ed.to_ (some node)).getD node none ≠ none := by
              rcases hnode with h | h
              · exact Or.inl h
              · exact Or.inr (xset_keeps_some x ed.to_ node node h)
            by_cases hto : ed.to_ = end_
            · -- the early return: to == end
              simp only [lsEdges, if_pos hb, if_pos hov, if_pos hrel, if_pos hxb,
                if_pos hto]
              have hcur : end_ = s ∨ (x.set ed.to_ (some node)).getD end_ none ≠ none := by
                refine Or.inr ?_
                rw [getD_set, if_pos ⟨hto, hxb⟩]
                simp
              have hc_eq : (t.set ed.to_ (t.getD node 0 + ed.weight)).getD end_ 0 =
                  t.getD node 0 + ed.weight := by
                rw [getD_set, if_pos ⟨hto, hb.1⟩]
              cases hrec : reconstruct (x.set ed.to_ (some node))
                  ((x.set ed.to_ (some node)).length + 1) end_ with
              | found path =>
                constructor
                · intro r h
                  cases Sum.inl.inj h
                  obtain ⟨hh, hl, hr⟩ :=
                    reconstruct_spec g s _ hinv'.xpred _ end_ path hcur hrec
                  refine ⟨hh, hl, hr, ?_, ?_, ?_⟩
                  · rw [hc_eq, ← hto]
                    exact hchain_to
                  · rw [hc_eq]
                    exact hvlt
                  · rw [← hto]
                    exact htos
                · intro t' x' e' h
                  exact Sum.noConfusion h
              | diverged =>
                exact ⟨fun r h => by cases Sum.inl.inj h; exact trivial,
                  fun t' x' e' h => Sum.noConfusion h⟩
              | panicked =>
                exact ⟨fun r h => by cases Sum.inl.inj h; exact trivial,
                  fun t' x' e' h => Sum.noConfusion h⟩
              | absent =>
                exact ⟨fun r h => by cases Sum.inl.inj h; exact trivial,
                  fun t' x' e' h => Sum.noConfusion h⟩
            · -- re-sort the relaxed node into the frontier
              simp only [lsEdges, if_pos hb, if_pos hov, if_pos hrel, if_pos hxb,
                if_neg hto]
              cases hsr : binarySearch
                  (fun i => compare ((t.set ed.to_ (t.getD node 0 + ed.weight)).getD ed.to_ 0)
                    ((t.set ed.to_ (t.getD node 0 + ed.weight)).getD i 0)) e with
              | inl pos => exact ih _ _ _ hcs' hinv' hnode' he'
              | inr pos =>
                have he'' : ∀ v ∈ insertAt pos ed.to_ e,
                    v = s ∨ (x.set ed.to_ (some node)).getD v none ≠ none := by
                  intro v hv
                  rcases mem_insertAt v pos ed.to_ e hv with h | h
                  · refine Or.inr ?_
                    rw [h, getD_set, if_pos ⟨rfl, hxb⟩]
                    simp
                  · exact he' v h
                exact ih _ _ _ hcs' hinv' hnode' he''
          · simp only [lsEdges, if_pos hb, if_pos hov, if_pos hrel, if_neg hxb]
            exact ⟨fun r h => by cases Sum.inl.inj h; exact trivial,
              fun t' x' e' h => Sum.noConfusion h⟩
        · simp only [lsEdges, if_pos hb, if_pos hov, if_neg hrel]
          exact ih _ _ _ hcs' hinv hnode he
      · simp only [lsEdges, if_pos hb, if_neg hov]
        exact ⟨fun r h => by cases Sum.inl.inj h; exact trivial,
          fun t' x' e' h => Sum.noConfusion h⟩
    · simp only [lsEdges, if_neg hb]
      exact ⟨fun r h => by cases Sum.inl.inj h; exact trivial,
        fun t' x' e' h => Sum.noConfusion h⟩

theorem lsLoop_master (g : Graph) (s end_ : Nat) (hgw : gWFb g = true) :
    ∀ (fuel : Nat) (t : List Nat) (x : List (Option Nat)) (e : List Nat),
      LSInv g s t x → (∀ v ∈ e, v = s ∨ x.getD v none ≠ none) →
      FoundOk g s end_ (lsLoop g end_ fuel t x e) := by
  intro fuel
  induction fuel with
  | zero =>
    intro t x e hinv he
    exact trivial
  | succ fuel ih =>
    intro t x e hinv he
    cases hlast : e.getLast? with
    | none =>
      simp only [lsLoop, hlast]
      exact trivial
    | some node =>
      cases hch : g.children node with
      | none =>
        simp only [lsLoop, hlast, hch]
        exact trivial
      | some cs =>
        simp only [lsLoop, hlast, hch]
        have hcs : ∀ ed ∈ cs, ed ∈ g.edges ∧ ed.from_ = node :=
          fun ed hed => ⟨children_mem g node cs hch ed hed,
            children_from g hgw node cs hch ed hed⟩
        have hnode : node = s ∨ x.getD node none ≠ none :=
          he node (mem_getLast? e node hlast)
        have he' : ∀ v ∈ e.dropLast, v = s ∨ x.getD v none ≠ none :=
          fun v hv => he v (List.dropLast_subset e hv)
        have hm := lsEdges_master g s end_ node cs t x e.dropLast hcs hinv hnode he'
        cases hstep : lsEdges g end_ node cs t x e.dropLast with
        | inl r =>
          simp only [hstep]
          exact hm.1 r hstep
        | inr st =>
          obtain ⟨t', x', e'⟩ := st
          simp only [hstep]
          obtain ⟨hinv', he''⟩ := hm.2 t' x' e' hstep
          exact ih t' x' e' hinv' he''

/-- The initial label-setting state satisfies the invariant, and anything
`labelSet` returns as `found` satisfies `FoundOk`. -/
theorem labelSet_found_spec (g : Graph) (s end_ fuel : Nat) (p : List Nat) (c : Nat)
    (hgw : gWFb g = true) (h : labelSet fuel s end_ g = Res.found (p, c)) :
    p.head? = some end_ ∧ p.getLast? = some s ∧ revLinked g p = true ∧
    IsChain g s end_ c ∧ c < 2 ^ 32 ∧ end_ ≠ s := by
  simp only [labelSet] at h
  split at h
  · next hs =>
    have hinv : LSInv g s ((List.replicate g.hints.length (2 ^ 32)).set s 0)
        (List.replicate g.hints.length none) := by
      refine ⟨?_, ?_, ?_, ?_, ?_, ?_⟩
      · simp
      · rw [getD_set, if_pos ⟨rfl, by simpa using hs⟩]
      · intro i
        rw [getD_set]
        split
        · exact Nat.zero_le _
        · rw [getD_replicate]
          split
          · exact Nat.le_refl _
          · exact Nat.zero_le _
      · intro i hi hlt
        rw [getD_set] at hlt ⊢
        by_cases hc : s = i ∧ s < (List.replicate g.hints.length (2 ^ 32) : List Nat).length
        · rw [if_pos hc] at hlt ⊢
          cases hc.1
          exact IsChain.nil s
        · rw [if_neg hc] at hlt ⊢
          rw [getD_replicate] at hlt ⊢
          rw [List.length_set, List.length_replicate] at hi
          rw [if_pos hi] at hlt
          exact absurd hlt (by simp)
      · rw [getD_replicate]
        split <;> rfl
      · intro v q hvq
        rw [getD_replicate] at hvq
        split at hvq <;> exact Option.noConfusion hvq
    have he : ∀ v ∈ [s], v = s ∨
        (List.replicate g.hints.length (none : Option Nat)).getD v none ≠ none := by
      intro v hv
      rw [List.mem_singleton] at hv
      exact Or.inl hv
    have := lsLoop_master g s end_ hgw fuel _ _ [s] hinv he
    rw [h] at this
    exact this
  · exact absurd h (by simp)

theorem lsEdges_self (g : Graph) (s node : Nat) :
    ∀ (cs : List Edge) (t : List Nat) (x : List (Option Nat)) (e : List Nat),
      t.getD s 0 = 0 →
      (∀ pc, lsEdges g s node cs t x e ≠ .inl (.found pc)) ∧
      (∀ t' x' e', lsEdges g s node cs t x e = .inr (t', x', e') →
        t'.getD s 0 = 0) := by
  intro cs
  induction cs with
  | nil =>
    intro t x e hts
    refine ⟨fun pc h => by simp [lsEdges] at h, fun t' x' e' h => ?_⟩
    simp only [lsEdges, Sum.inr.injEq, Prod.mk.injEq] at h
    rw [← h.1]; exact hts
  | cons ed rest ih =>
    intro t x e hts
    by_cases hb : ed.to_ < t.length ∧ node < t.length
    · by_cases hov : t.getD node 0 + ed.weight < USIZE
      · by_cases hrel : t.getD node 0 + ed.weight < t.getD ed.to_ 0
        · by_cases hxb : ed.to_ < x.length
          · have hne : ed.to_ ≠ s := by
              intro hc
              rw [hc, hts] at hrel
              exact Nat.not_lt_zero _ hrel
            have hts' : (t.set ed.to_ (t.getD node 0 + ed.weight)).getD s 0 = 0 := by
              rw [getD_set]
              have : ¬(ed.to_ = s ∧ ed.to_ < t.length) := fun hc => hne hc.1
              simpa [this] using hts
            simp only [lsEdges, if_pos hb, if_pos hov, if_pos hrel, if_pos hxb,
              if_neg hne]
            cases hsr : binarySearch
                (fun i => compare ((t.set ed.to_ (t.getD node 0 + ed.weight)).getD ed.to_ 0)
                  ((t.set ed.to_ (t.getD node 0 + ed.weight)).getD i 0)) e with
            | inl pos => exact ih _ _ _ hts'
            | inr pos => exact ih _ _ _ hts'
          · simp only [lsEdges, if_pos hb, if_pos hov, if_pos hrel, if_neg hxb]
            exact ⟨fun pc h => by simp at h, fun t' x' e' h => by simp at h⟩
        · simp only [lsEdges, if_pos hb, if_pos hov, if_neg hrel]
          exact ih _ _ _ hts
      · simp only [lsEdges, if_pos hb, if_neg hov]
        exact ⟨fun pc h => by simp at h, fun t' x' e' h => by simp at h⟩
    · simp only [lsEdges, if_neg hb]
      exact ⟨fun pc h => by simp at h, fun t' x' e' h => by simp at h⟩

theorem lsLoop_self (g : Graph) (s : Nat) :
    ∀ (fuel : Nat) (t : List Nat) (x : List (Option Nat)) (e : List Nat),
      t.getD s 0 = 0 → ∀ pc, lsLoop g s fuel t x e ≠ .found pc := by
  intro fuel
  induction fuel with
  | zero => intro t x e hts pc h; simp [lsLoop] at h
  | succ fuel ih =>
    intro t x e hts pc h
    cases hlast : e.getLast? with
    | none => simp only [lsLoop, hlast] at h; exact Res.noConfusion h
    | some node =>
      cases hch : g.children node with
      | none => simp only [lsLoop, hlast, hch] at h; exact Res.noConfusion h
      | some cs =>
        simp only [lsLoop, hlast, hch] at h
        cases hstep : lsEdges g s node cs t x e.dropLast with
        | inl r =>
          simp only [hstep] at h
          rw [h] at hstep
          exact (lsEdges_self g s node cs t x e.dropLast hts).1 pc hstep
        | inr st =>
          obtain ⟨t', x', e'⟩ := st
          simp only [hstep] at h
          exact ih t' x' e'
            ((lsEdges_self g s node cs t x e.dropLast hts).2 t' x' e' hstep) pc h

/-! ### The loader -/

theorem countP_le_countP {α : Type} (p q : α → Bool) (l : List α)
    (h : ∀ a ∈ l, p a = true → q a = true) : l.countP p ≤ l.countP q := by
  induction l with
  | nil => simp
  | cons a as ih =>
    have ih' := ih fun b hb => h b (List.mem_cons_of_mem _ hb)
    by_cases hp : p a = true
    · rw [List.countP_cons_of_pos _ _ hp,
        List.countP_cons_of_pos _ _ (h a (List.mem_cons_self _ _) hp)]
      omega
    · rw [List.countP_cons_of_neg _ _ hp]
      by_cases hq : q a = true
      · rw [List.countP_cons_of_pos _ _ hq]
        omega
      · rw [List.countP_cons_of_neg _ _ hq]
        omega

theorem take_countP_eq_filter (i : Nat) : ∀ (l : List Edge),
    l.Pairwise (fun a b => a.from_ ≤ b.from_) →
    (∀ ed ∈ l, i ≤ ed.from_) →
    l.take (l.countP (fun ed => decide (ed.from_ ≤ i))) =
      l.filter (fun ed => ed.from_ == i) := by
  intro l
  induction l with
  | nil => intro _ _; rfl
  | cons e l' ih =>
    intro hpw hge
    obtain ⟨hall, hpw'⟩ := List.pairwise_cons.mp hpw
    by_cases hle : e.from_ ≤ i
    · have heq : e.from_ = i :=
        Nat.le_antisymm hle (hge e (List.mem_cons_self _ _))
      rw [List.countP_cons_of_pos _ _ (by simpa using hle), List.take_succ_cons,
        List.filter_cons_of_pos (by simpa using heq),
        ih hpw' fun ed hed => hge ed (List.mem_cons_of_mem _ hed)]
    · have hzero : l'.countP (fun ed => decide (ed.from_ ≤ i)) = 0 := by
        rw [List.countP_eq_zero]
        intro ed hed
        have := hall ed hed
        simp only [decide_eq_true_eq]
        omega
      rw [List.countP_cons_of_neg _ _ (by simpa using hle), hzero, List.take_zero]
      symm
      rw [List.filter_eq_nil_iff]
      intro ed hed
      rcases List.mem_cons.mp hed with rfl | hm
      · simp only [beq_iff_eq]
        omega
      · have := hall ed hm
        simp only [beq_iff_eq]
        omega

theorem sorted_slice (i : Nat) (hi : 1 ≤ i) : ∀ (l : List Edge),
    l.Pairwise (fun a b => a.from_ ≤ b.from_) →
    (l.drop (l.countP (fun ed => decide (ed.from_ ≤ i - 1)))).take
      (l.countP (fun ed => decide (ed.from_ ≤ i)) -
        l.countP (fun ed => decide (ed.from_ ≤ i - 1))) =
      l.filter (fun ed => ed.from_ == i) := by
  intro l
  induction l with
  | nil => intro _; rfl
  | cons e l' ih =>
    intro hpw
    obtain ⟨hall, hpw'⟩ := List.pairwise_cons.mp hpw
    by_cases h1 : e.from_ ≤ i - 1
    · have h2 : e.from_ ≤ i := by omega
      have hb1 : decide (e.from_ ≤ i - 1) = true := by simpa using h1
      have hb2 : decide (e.from_ ≤ i) = true := by simpa using h2
      have hc1 : (e :: l').countP (fun ed => decide (ed.from_ ≤ i - 1)) =
          l'.countP (fun ed => decide (ed.from_ ≤ i - 1)) + 1 :=
        List.countP_cons_of_pos _ _ hb1
      have hc2 : (e :: l').countP (fun ed => decide (ed.from_ ≤ i)) =
          l'.countP (fun ed => decide (ed.from_ ≤ i)) + 1 :=
        List.countP_cons_of_pos _ _ hb2
      rw [hc1, hc2, Nat.add_sub_add_right, List.drop_succ_cons,
        List.filter_cons_of_neg (by simp only [beq_iff_eq]; omega)]
      exact ih hpw'
    · by_cases h2 : e.from_ ≤ i
      · have heq : e.from_ = i := by omega
        have hb1 : ¬ decide (e.from_ ≤ i - 1) = true := by simpa using h1
        have hb2 : decide (e.from_ ≤ i) = true := by simpa using h2
        have hzero : l'.countP (fun ed => decide (ed.from_ ≤ i - 1)) = 0 := by
          rw [List.countP_eq_zero]
          intro ed hed
          have := hall ed hed
          simp only [decide_eq_true_eq]
          omega
        have hc0 : (e :: l').countP (fun ed => decide (ed.from_ ≤ i - 1)) =
            l'.countP (fun ed => decide (ed.from_ ≤ i - 1)) :=
          List.countP_cons_of_neg _ _ hb1
        have hc1 : (e :: l').countP (fun ed => decide (ed.from_ ≤ i - 1)) = 0 := by
          rw [hc0]
          exact hzero
        have hc2 : (e :: l').countP (fun ed => decide (ed.from_ ≤ i)) =
            l'.countP (fun ed => decide (ed.from_ ≤ i)) + 1 :=
          List.countP_cons_of_pos _ _ hb2
        rw [hc1, hc2, List.drop_zero, Nat.sub_zero, List.take_succ_cons,
          List.filter_cons_of_pos (by simpa using heq),
          take_countP_eq_filter i l' hpw' fun ed hed => by
            have := hall ed hed; omega]
      · have hb1 : ¬ decide (e.from_ ≤ i - 1) = true := by simpa using h1
        have hb2 : ¬ decide (e.from_ ≤ i) = true := by simpa using h2
        have hz1 : l'.countP (fun ed => decide (ed.from_ ≤ i - 1)) = 0 := by
          rw [List.countP_eq_zero]
          intro ed hed
          have := hall ed hed
          simp only [decide_eq_true_eq]
          omega
        have hz2 : l'.countP (fun ed => decide (ed.from_ ≤ i)) = 0 := by
          rw [List.countP_eq_zero]
          intro ed hed
          have := hall ed hed
          simp only [decide_eq_true_eq]
          omega
        have hc10 : (e :: l').countP (fun ed => decide (ed.from_ ≤ i - 1)) =
            l'.countP (fun ed => decide (ed.from_ ≤ i - 1)) :=
          List.countP_cons_of_neg _ _ hb1
        have hc20 : (e :: l').countP (fun ed => decide (ed.from_ ≤ i)) =
            l'.countP (fun ed => decide (ed.from_ ≤ i)) :=
          List.countP_cons_of_neg _ _ hb2
        have hc1 : (e :: l').countP (fun ed => decide (ed.from_ ≤ i - 1)) = 0 := by
          rw [hc10]
          exact hz1
        have hc2 : (e :: l').countP (fun ed => decide (ed.from_ ≤ i)) = 0 := by
          rw [hc20]
          exact hz2
        rw [hc1, hc2, List.drop_zero, Nat.sub_zero, List.take_zero]
        symm
        rw [List.filter_eq_nil_iff]
        intro ed hed
        rcases List.mem_cons.mp hed with rfl | hm
        · simp only [beq_iff_eq]
          omega
        · have := hall ed hm
          simp only [beq_iff_eq]
          omega

theorem newGo_malformed : ∀ (lines : List Line) (i prev : Nat) (hints : List Nat)
    (edges : List Edge),
    fromsOk lines prev = true →
    (Graph.newGo lines i prev hints edges = .malformed ↔
      ∃ l ∈ lines, parseLine l = none) := by
  intro lines
  induction lines with
  | nil =>
    intro i prev hints edges hok
    simp [Graph.newGo]
  | cons l rest ih =>
    intro i prev hints edges hok
    cases hp : parseLine l with
    | none =>
      constructor
      · intro _
        exact ⟨l, List.mem_cons_self _ _, hp⟩
      · intro _
        show Graph.newGo (l :: rest) i prev hints edges = LoadRes.malformed
        simp [Graph.newGo, hp]
    | some ftw =>
      obtain ⟨f, t, w⟩ := ftw
      have hok' : (decide (prev ≤ f) && fromsOk rest f) = true := by
        simp only [fromsOk, hp] at hok
        exact hok
      rw [Bool.and_eq_true] at hok'
      have hpf : prev ≤ f := of_decide_eq_true hok'.1
      simp only [Graph.newGo, hp, if_neg (Nat.not_lt.mpr hpf)]
      rw [ih (i + 1) f _ _ hok'.2]
      constructor
      · rintro ⟨l', hl', hpl'⟩
        exact ⟨l', List.mem_cons_of_mem _ hl', hpl'⟩
      · rintro ⟨l', hl', hpl'⟩
        rcases List.mem_cons.mp hl' with rfl | hm
        · rw [hp] at hpl'
          exact absurd hpl' (by simp)
        · exact ⟨l', hm, hpl'⟩

theorem newGo_ok_spec : ∀ (lines : List Line) (i prev : Nat) (hints : List Nat)
    (edges : List Edge) (g : Graph),
    Graph.newGo lines i prev hints edges = .ok g →
    i = edges.length →
    hints.length = prev →
    1 ≤ prev →
    (∀ k, k < prev →
      hints.getD k 0 = edges.countP (fun ed => decide (ed.from_ ≤ k))) →
    (∀ ed ∈ edges, 1 ≤ ed.from_ ∧ ed.from_ ≤ prev) →
    edges.Pairwise (fun a b => a.from_ ≤ b.from_) →
    (edges = [] ∨ maxFromL edges = prev) →
    (∀ k, k < g.hints.length →
      g.hints.getD k 0 = g.edges.countP (fun ed => decide (ed.from_ ≤ k))) ∧
    g.edges.Pairwise (fun a b => a.from_ ≤ b.from_) ∧
    g.edges.length = edges.length + lines.length ∧
    (g.edges ≠ [] → g.hints.length = maxFromL g.edges + 1) := by
  intro lines
  induction lines with
  | nil =>
    intro i prev hints edges g h hi hlen hp1 hcnt hfr hpw hmax
    simp only [Graph.newGo, LoadRes.ok.injEq] at h
    subst h
    refine ⟨?_, hpw, by simp, ?_⟩
    · intro k hk
      show (hints ++ [i]).getD k 0 = edges.countP fun ed => decide (ed.from_ ≤ k)
      have hklen : k < prev + 1 := by
        simpa [hlen] using hk
      by_cases hkp : k < prev
      · rw [List.getD_append hints [i] 0 k (by rw [hlen]; exact hkp)]
        exact hcnt k hkp
      · have hkeq : k = prev := by omega
        rw [List.getD_append_right hints [i] 0 k (by rw [hlen]; omega)]
        rw [hlen, hkeq, Nat.sub_self]
        show i = edges.countP fun ed => decide (ed.from_ ≤ prev)
        rw [hi]
        symm
        rw [List.countP_eq_length]
        intro ed hed
        simp only [decide_eq_true_eq]
        exact (hfr ed hed).2
    · intro hne
      rcases hmax with he | hm
      · exact absurd he hne
      · show (hints ++ [i]).length = maxFromL edges + 1
        simp [hlen, hm]
  | cons l rest ih =>
    intro i prev hints edges g h hi hlen hp1 hcnt hfr hpw hmax
    cases hp : parseLine l with
    | none =>
      simp only [Graph.newGo, hp] at h
      exact LoadRes.noConfusion h
    | some ftw =>
      obtain ⟨f, t, w⟩ := ftw
      by_cases hlt : f < prev
      · simp only [Graph.newGo, hp, if_pos hlt] at h
        exact LoadRes.noConfusion h
      · have hpf : prev ≤ f := Nat.not_lt.mp hlt
        simp only [Graph.newGo, hp, if_neg hlt] at h
        have key := ih (i + 1) f (hints ++ List.replicate (f - prev) i)
          (edges ++ [⟨f, t, w⟩]) g h ?_ ?_ ?_ ?_ ?_ ?_ ?_
        · refine ⟨key.1, key.2.1, ?_, key.2.2.2⟩
          rw [key.2.2.1, List.length_append, List.length_cons]
          simp
          omega
        · rw [List.length_append, List.length_cons, List.length_nil, hi]
        · rw [List.length_append, List.length_replicate, hlen]
          omega
        · omega
        · intro k hk
          by_cases hkp : k < prev
          · rw [List.getD_append hints _ 0 k (by rw [hlen]; exact hkp)]
            rw [hcnt k hkp, List.countP_append]
            have hc2 : ([(⟨f, t, w⟩ : Edge)].countP fun ed => decide (ed.from_ ≤ k)) = 0 := by
              simp only [List.countP_cons, List.countP_nil]
              simp
              omega
            omega
          · rw [List.getD_append_right hints _ 0 k (by rw [hlen]; omega)]
            rw [hlen, getD_replicate, if_pos (by omega)]
            rw [hi, List.countP_append]
            have hc1 : (edges.countP fun ed => decide (ed.from_ ≤ k)) = edges.length :=
              List.countP_eq_length.mpr fun ed hed => by
                simp only [decide_eq_true_eq]
                exact le_trans (hfr ed hed).2 (by omega)
            have hc2 : ([(⟨f, t, w⟩ : Edge)].countP fun ed => decide (ed.from_ ≤ k)) = 0 := by
              simp only [List.countP_cons, List.countP_nil]
              simp
              omega
            omega
        · intro ed hed
          rcases List.mem_append.mp hed with hm | hm
          · exact ⟨(hfr ed hm).1, le_trans (hfr ed hm).2 hpf⟩
          · rw [List.mem_singleton] at hm
            subst hm
            refine ⟨?_, ?_⟩
            · show 1 ≤ f
              omega
            · show f ≤ f
              exact Nat.le_refl f
        · rw [List.pairwise_append]
          refine ⟨hpw, List.pairwise_singleton _ _, ?_⟩
          intro a ha b hb
          rw [List.mem_singleton] at hb
          subst hb
          exact le_trans (hfr a ha).2 hpf
        · refine Or.inr ?_
          show maxFromL (edges ++ [⟨f, t, w⟩]) = f
          unfold maxFromL
          rw [List.foldl_append, List.foldl_cons, List.foldl_nil]
          show max (maxFromL edges) f = f
          rcases hmax with he | hm
          · rw [he]
            show max (maxFromL ([] : List Edge)) f = f
            exact Nat.max_eq_right (Nat.zero_le f)
          · rw [hm]
            exact Nat.max_eq_right hpf

/-- C7 (amended): provided the `from` fields of the well-formed lines start
at 1 or above and never decrease (otherwise the backfill loop of the source
never terminates), the loader fails with `MalformedInput` **iff** some line
has fewer than three tokens or one of its **first three** tokens is not a
non-negative integer. Tokens after the third are ignored (see
`c7_counter_fourth_token_ignored`), and on failure no graph is returned —
the malformed outcome carries no partial data. -/
theorem c7_amended (lines : List Line) (hok : fromsOk lines 1 = true) :
    Graph.new lines = LoadRes.malformed ↔ ∃ l ∈ lines, parseLine l = none :=
  newGo_malformed lines 0 1 [0] [] hok

/-- C7 witness: a single line whose second token does not parse makes the
whole load fail. -/
theorem c7_witness : Graph.new [[some 1, none, some 2]] = LoadRes.malformed :=
  (c7_amended [[some 1, none, some 2]] rfl).mpr
    ⟨[some 1, none, some 2], by simp, rfl⟩

/-- C8 (amended): for every non-empty well-formed input whose lines the
loader accepts, the offsets array has length `(max FROM id) + 1` (not max
node id: a node appearing only as a `to` past the last `from` has no slot,
see `c8_counter_offsets_shorter_than_claimed`), the offsets are monotone
non-decreasing, and for every node `i` in `[1, max from]`, `children i`
returns exactly the edges whose `from` field is `i`. -/
theorem c8_amended (lines : List Line) (g : Graph)
    (h : Graph.new lines = LoadRes.ok g) (hne : lines ≠ []) :
    g.hints.length = maxFrom g + 1 ∧
    (∀ k, k + 1 < g.hints.length → g.hints.getD k 0 ≤ g.hints.getD (k + 1) 0) ∧
    (∀ i, 1 ≤ i → i < g.hints.length →
      g.children i = some (g.edges.filter fun ed => ed.from_ == i)) := by
  have key := newGo_ok_spec lines 0 1 [0] [] g h rfl rfl (Nat.le_refl 1)
    (fun k hk => by
      have hk0 : k = 0 := by omega
      subst hk0
      rfl)
    (fun ed hed => absurd hed (List.not_mem_nil ed))
    List.Pairwise.nil
    (Or.inl rfl)
  obtain ⟨ha, hpw, hlen, hmx⟩ := key
  have hgne : g.edges ≠ [] := by
    intro hcon
    rw [hcon] at hlen
    simp only [List.length_nil] at hlen
    exact hne (List.length_eq_zero.mp (by omega))
  have hL : g.hints.length = maxFromL g.edges + 1 := hmx hgne
  refine ⟨hL, ?_, ?_⟩
  · intro k hk
    rw [ha k (by omega), ha (k + 1) hk]
    exact countP_le_countP _ _ _ fun ed hed hp => by
      simp only [decide_eq_true_eq] at hp ⊢
      omega
  · intro i h1 h2
    unfold Graph.children
    rw [if_pos ⟨h1, h2⟩]
    have ha1 := ha (i - 1) (by omega)
    have ha2 := ha i h2
    rw [ha1, ha2]
    have hmono : g.edges.countP (fun ed => decide (ed.from_ ≤ i - 1)) ≤
        g.edges.countP (fun ed => decide (ed.from_ ≤ i)) :=
      countP_le_countP _ _ _ fun ed hed hp => by
        simp only [decide_eq_true_eq] at hp ⊢
        omega
    have hle : g.edges.countP (fun ed => decide (ed.from_ ≤ i)) ≤ g.edges.length :=
      List.countP_le_length _
    rw [if_pos ⟨hmono, hle⟩]
    rw [sorted_slice i h1 g.edges hpw]

/-- C8 witness: the amended claim instantiated on the loaded 2-node graph
`G12`. -/
theorem c8_witness :
    (G12.hints.length = maxFrom G12 + 1) ∧
    (∀ k, k + 1 < G12.hints.length → G12.hints.getD k 0 ≤ G12.hints.getD (k + 1) 0) ∧
    (∀ i, 1 ≤ i → i < G12.hints.length →
      G12.children i = some (G12.edges.filter fun ed => ed.from_ == i)) :=
  c8_amended g12Lines G12 rfl (by simp [g12Lines])

/-! ### Chains of the graph `Gc10` -/

theorem gc10_chains : ∀ (v c : Nat), IsChain Gc10 1 v c →
    (v = 1 ∧ c = 0) ∨ (v = 2 ∧ c = 4294967296) ∨ (v = 4 ∧ c = 0) := by
  intro v c h
  induction h with
  | nil => exact Or.inl ⟨rfl, rfl⟩
  | cons hch hmem ih =>
    simp only [Gc10, List.mem_cons, List.not_mem_nil, or_false, Edge.mk.injEq] at hmem
    rcases hmem with ⟨hb, hv, hw⟩ | ⟨hb, hv, hw⟩ | ⟨hb, hv, hw⟩ <;>
      subst hv <;> subst hw <;> omega

theorem gc10_minchain : ∀ c, IsChain Gc10 1 2 c → 2 ^ 32 ≤ c := by
  intro c h
  have h32 : (2 : Nat) ^ 32 = 4294967296 := by norm_num
  have := gc10_chains 2 c h
  omega

/-! ### Claim theorems on concrete inputs -/

/-- C1: the claim fails on the code. On the loadable input `c1Lines`,
`label_set(1,2)` returns cost 10 (the direct edge) because it returns the
instant the end node is first relaxed, while a walk `1 → 3 → 2` of cost 2
exists; so the returned cost is not the minimum over all paths. (On the
spec's own scenario graph the call does not even return, see `c6` below.) -/
theorem c1_shortest_path_not_minimal :
    Graph.new c1Lines = LoadRes.ok Gc1 ∧
    labelSet 50 1 2 Gc1 = Res.found ([2, 1], 10) ∧
    IsChain Gc1 1 2 2 := by
  refine ⟨rfl, rfl, ?_⟩
  have h1 : IsChain Gc1 1 3 (0 + 1) :=
    IsChain.cons (IsChain.nil 1) (by decide)
  have h2 : IsChain Gc1 1 2 (0 + 1 + 1) :=
    IsChain.cons h1 (by decide)
  simpa using h2

/-- C3: the claim fails on the code. The scenario graph is connected viewed
as undirected, yet `kruskal` panics: the group-label array is sized to the
edge count (3), and node 3 — which never occurs as a `from` — is indexed
out of its bounds. -/
theorem c3_kruskal_faults_on_connected_graph :
    Graph.new scenLines = LoadRes.ok Gscen ∧ kruskal Gscen = Res.panicked :=
  ⟨rfl, rfl⟩

/-- C4: the claim fails on the code, in both directions. The loadable input
`g12Lines` is a directed 2-cycle (`1 → 2 → 1`, witnessed by the chain of
cost 2 from 1 back to 1), yet `monotone_ordering` returns a rank mapping
(all ranks 0) instead of absence: the `retain` closure keeps processed
nodes and drops pending ones, so the first pass empties `used` and the loop
exits successfully. Conversely, the acyclic input `g21Lines` does not get a
rank mapping: its lone zero-in-degree node is kept and re-processed, and
the second pass underflows an in-degree counter. -/
theorem c4_cycle_gets_an_ordering :
    Graph.new g12Lines = LoadRes.ok G12 ∧
    monotoneOrdering 10 G12 = Res.found [0, 0, 0] ∧
    Graph.new g21Lines = LoadRes.ok G21 ∧
    monotoneOrdering 10 G21 = Res.panicked ∧
    IsChain G12 1 1 2 := by
  refine ⟨rfl, rfl, rfl, rfl, ?_⟩
  have h1 : IsChain G12 1 2 (0 + 1) :=
    IsChain.cons (IsChain.nil 1) (by decide)
  have h2 : IsChain G12 1 1 (0 + 1 + 1) :=
    IsChain.cons h1 (by decide)
  simpa using h2

/-- C5: the claim fails on the code. On the 2-cycle `g12Lines` the engine
returns the mapping `[0,0,0]`, and for the edge `(1,2,1)` of the graph the
rank of 1 is not strictly below the rank of 2. -/
theorem c5_rank_order_violated :
    monotoneOrdering 10 G12 = Res.found [0, 0, 0] ∧
    Edge.mk 1 2 1 ∈ G12.edges ∧
    ¬ (([0, 0, 0] : List Nat).getD 1 0 < ([0, 0, 0] : List Nat).getD 2 0) := by
  exact ⟨rfl, by decide, by decide⟩

/-- C6: the claim fails on the code. The spec's own scenario input loads
fine, but every one of the three queries terminates in an out-of-bounds
fault: node 3 appears only as a `to`, so the per-engine working arrays
(distances, group labels, in-degree counters), all sized by
`hints.len() = max from + 1 = 3`, have no slot for it. -/
theorem c6_all_three_engines_fault :
    Graph.new scenLines = LoadRes.ok Gscen ∧
    labelSet 50 1 3 Gscen = Res.panicked ∧
    kruskal Gscen = Res.panicked ∧
    monotoneOrdering 50 Gscen = Res.panicked :=
  ⟨rfl, rfl, rfl, rfl⟩

/-- C7 counterexample: a line of four tokens loads successfully — the parser
reads only the first three parse results and never looks at the rest of the
line — refuting "fails ... (wrong token count — too few or too many)". -/
theorem c7_counter_fourth_token_ignored :
    Graph.new [[some 1, some 2, some 3, some 4]] =
      LoadRes.ok ⟨[0, 1], [⟨1, 2, 3⟩]⟩ ∧
    ([some 1, some 2, some 3, some 4] : Line).length = 4 :=
  ⟨rfl, rfl⟩

/-- C8 counterexample: on the scenario input the offsets array has length
3, not `(max node id) + 1 = 4` — node 3 appears in the file (as a `to`) but
`children 3` is an out-of-bounds fault, not the list of its out-edges. -/
theorem c8_counter_offsets_shorter_than_claimed :
    Graph.new scenLines = LoadRes.ok Gscen ∧
    maxNode Gscen = 3 ∧
    Gscen.hints.length = 3 ∧
    Gscen.children 3 = none :=
  ⟨rfl, by decide, rfl, rfl⟩

/-- C9 counterexample: on the loaded scenario graph and the valid start
node 1, `shortest_path(1,1)` panics (node 3 is indexed while exploring)
instead of returning the absence value the claim promises. -/
theorem c9_counter_start_end_equal_panics :
    Graph.new scenLines = LoadRes.ok Gscen ∧
    labelSet 50 1 1 Gscen = Res.panicked :=
  ⟨rfl, rfl⟩

/-- C2 counterexample: `label_set` keeps the reconstructed path in
end-to-start order (the reversal happens only in the printing layer), so on
`g12Lines` the first node of the returned path is 2, not the start 1; and on
`c2Lines` the returned pair is `([8,7,6,5,2,1], 26)` while the weights of
the returned path's edges sum to 19 — a predecessor entry went stale before
the early return — refuting "the sum of traversed edge weights equals the
reported cost". -/
theorem c2_counter_order_and_cost :
    labelSet 50 1 2 G12 = Res.found ([2, 1], 1) ∧
    ([2, 1] : List Nat).head? = some 2 ∧
    Graph.new c2Lines = LoadRes.ok G8 ∧
    labelSet 50 1 8 G8 = Res.found ([8, 7, 6, 5, 2, 1], 26) ∧
    pathWeightRev G8 [8, 7, 6, 5, 2, 1] = some 19 :=
  ⟨rfl, rfl, rfl, rfl, rfl⟩

/-- C10 counterexample: on the loadable graph `Gc10` a walk from 1 to 2 of
cost `2^32` exists (and it is the only walk, see `gc10_chains`), yet the
query panics on the out-of-bounds node 4 instead of returning the absence
value the claim promises. -/
theorem c10_counter_no_absence_despite_heavy_path :
    Graph.new c10Lines = LoadRes.ok Gc10 ∧
    IsChain Gc10 1 2 (2 ^ 32) ∧
    labelSet 50 1 2 Gc10 = Res.panicked := by
  refine ⟨rfl, ?_, rfl⟩
  have h : IsChain Gc10 1 2 (0 + 4294967296) :=
    IsChain.cons (IsChain.nil 1) (by decide)
  have e : (2 : Nat) ^ 32 = 0 + 4294967296 := by norm_num
  exact e ▸ h

/-! ### Amended claims, proved in general -/

/-- C2 (amended): whenever `label_set` returns `(path, cost)` on a
well-formed graph, the path is ordered from **end to start** (its first node
is the end, its last node is the start — the reversal to start→end order
happens only in the excluded printing layer), every consecutive pair read
backwards is a real edge of the graph, and the cost is the total weight of
some walk from start to end, strictly below the sentinel (though not
necessarily the weight sum of the returned path itself, which can differ —
see `c2_counter_order_and_cost`). -/
theorem c2_amended (g : Graph) (s end_ fuel : Nat) (p : List Nat) (c : Nat)
    (hgw : gWFb g = true) (h : labelSet fuel s end_ g = Res.found (p, c)) :
    p.head? = some end_ ∧ p.getLast? = some s ∧ revLinked g p = true ∧
    IsChain g s end_ c ∧ c < 2 ^ 32 := by
  obtain ⟨h1, h2, h3, h4, h5, _⟩ := labelSet_found_spec g s end_ fuel p c hgw h
  exact ⟨h1, h2, h3, h4, h5⟩

/-- C2 witness: the amended claim instantiated on the loaded graph `G12`
with the concrete run `label_set(1,2) = ([2,1], 1)`. -/
theorem c2_witness :
    ([2, 1] : List Nat).head? = some 2 ∧ ([2, 1] : List Nat).getLast? = some 1 ∧
    revLinked G12 [2, 1] = true ∧ IsChain G12 1 2 1 ∧ 1 < 2 ^ 32 :=
  c2_amended G12 1 2 50 [2, 1] 1 rfl rfl

/-- C9 (amended): `label_set(s, s, g)` never returns a result, on any graph
and for any start node: a result requires a strict improvement of the end
node's distance, and the start's distance 0 cannot be improved under the
non-negative (usize) weights. When the run terminates without fault it
therefore returns the absence value (`c9_counter_start_end_equal_panics`
shows a loaded graph where it faults instead). -/
theorem c9_amended : ∀ (g : Graph) (s fuel : Nat) (pc : List Nat × Nat),
    labelSet fuel s s g ≠ Res.found pc := by
  intro g s fuel pc h
  simp only [labelSet] at h
  split at h
  · next hs =>
    refine lsLoop_self g s fuel _ _ [s] ?_ pc h
    rw [getD_set, if_pos ⟨rfl, by simpa using hs⟩]
  · exact Res.noConfusion h

/-- C9 witness: the amended claim at the concrete loaded graph `G12` and
start node 1 (where the run indeed terminates with the absence value). -/
theorem c9_witness :
    (labelSet 50 1 1 G12 ≠ Res.found ([1], 0)) ∧ labelSet 50 1 1 G12 = Res.absent :=
  ⟨c9_amended G12 1 50 ([1], 0), rfl⟩

/-- C10 (amended): `label_set` uses `2^32` (`1 << 32`) as its finite
infinity sentinel. On a well-formed graph every cost it returns is strictly
below `2^32`; and when every walk from start to end weighs at least `2^32`,
it can never return a result — when it terminates normally it reports
absence, although (see `c10_counter_no_absence_despite_heavy_path`) it may
instead fault on a graph whose node ids exceed the array bounds. -/
theorem c10_amended (g : Graph) (s end_ : Nat) (hgw : gWFb g = true) :
    (∀ fuel p c, labelSet fuel s end_ g = Res.found (p, c) → c < 2 ^ 32) ∧
    ((∀ c, IsChain g s end_ c → 2 ^ 32 ≤ c) →
      ∀ fuel p c, labelSet fuel s end_ g ≠ Res.found (p, c)) := by
  constructor
  · intro fuel p c h
    exact (labelSet_found_spec g s end_ fuel p c hgw h).2.2.2.2.1
  · intro hmin fuel p c h
    have hm := labelSet_found_spec g s end_ fuel p c hgw h
    exact Nat.lt_irrefl _ (Nat.lt_of_lt_of_le hm.2.2.2.2.1 (hmin c hm.2.2.2.1))

/-- C10 witness: the amended claim instantiated on the loaded graph `Gc10`,
whose every walk from 1 to 2 weighs `2^32`. -/
theorem c10_witness : labelSet 50 1 2 Gc10 ≠ Res.found ([2, 1], 0) :=
  (c10_amended Gc10 1 2 rfl).2 gc10_minchain 50 [2, 1] 0

end ATG
